import Mathlib

/-!
# Tribonacci engine (package `tribo`)

A shallow embedding of `tribo/tribo.go`: the engine `Tribo` with its cache of
`*big.Int` values, the constructor `New`, the lookup `Get`, and the helpers
`lastThree`, `cacheValue`, `cacheCopy` and `appendToCache`.

Modelling choices.

* `*big.Int` values are unbounded integers (`Int`); deep copies (`Set`) are the
  identity on values.  `[]*big.Int` is `List Int`.
* Go `int` arguments (`n`, `cacheSizeLimit`, the loop counter `l`) are `Int`.
  The counter only moves from `len(tempCache)` up to `n`, so it never wraps.
* A run-time panic is an `Except.error` carrying the panic message.
* `go t.appendToCache(tempCache)` is asynchronous: `Get` does not change the
  cache itself, it reports the slice whose merge it scheduled.
* The `select` of one loop iteration is resolved by two oracles, the context
  (is `ctx.Done()` closed) and the scheduler (does the ready `compute` case win
  when both cases can proceed).
-/

namespace tribo

/-! ## Data model -/

/-- Modelled from the spec: the type `Result` is declared outside `tribo.go`; it
wraps the decimal string of one term in its field `Value`. -/
structure Result where
  Value : String
  deriving DecidableEq, Repr

/-- Errors that `Get` can return: `errors.New msg`, or the value of `ctx.Err()`
(`context.Canceled`, `context.DeadlineExceeded`). -/
inductive Error where
  | New (msg : String)
  | Canceled
  | DeadlineExceeded
  deriving DecidableEq, Repr

/-- The method `(*big.Int).String`: the decimal representation. -/
def bigString (x : Int) : String := toString x

/-- The struct `Tribo` (the mutex `mx` guards `cache`; it has no value content). -/
structure Tribo where
  cache : List Int
  cacheSizeLimit : Int
  deriving DecidableEq, Repr

/-- A `context.Context` as seen by `Get`: `ctx k = some e` when `ctx.Done()` is
closed at the `select` of loop iteration `k` (counted from 0) and `ctx.Err()` is
`e`; `ctx k = none` when it is still open there. -/
abbrev Context := Nat → Option Error

/-- The scheduler as seen by `Get`: `sched k = true` when, at the `select` of loop
iteration `k`, the goroutine has already sent on `compute` and the `select`
chooses `case <-compute` although `ctx.Done()` can proceed as well. -/
abbrev Sched := Nat → Bool

/-- The context `context.Background()`: never cancelled. -/
def Background : Context := fun _ => none

/-- A context that is cancelled (here: past its deadline) before `Get` is called. -/
def Expired : Context := fun _ => some Error.DeadlineExceeded

/-- A context never fires when its `Done` channel is open at every `select`. -/
def NeverFires (ctx : Context) : Prop := ∀ k, ctx k = none

/-! ## Operations -/

/-- The function `New`. -/
def New (cacheSizeLimit : Int) : Tribo :=
  { cache := [0, 0, 1], cacheSizeLimit := cacheSizeLimit }

/-- Go slice indexing `s[i]`: panics unless `0 <= i < len(s)`. -/
def index (s : List Int) (i : Int) : Except String Int :=
  if 0 ≤ i then
    match s.get? i.toNat with
    | some v => .ok v
    | none => .error "index out of range"
  else .error "index out of range"

/-- The function `lastThree`. -/
def lastThree (s : List Int) : Except String (Int × Int × Int) :=
  let l : Int := s.length
  if l < 3 then
    .error "Tribo struct was not properly initialized"
  else do
    let r1 ← index s (l - 3)
    let r2 ← index s (l - 2)
    let r3 ← index s (l - 1)
    return (r1, r2, r3)

/-- The method `cacheValue`; `none` stands for `(nil, false)`. -/
def Tribo.cacheValue (t : Tribo) (n : Int) : Except String (Option Result) :=
  if n ≤ t.cache.length then do
    let v ← index t.cache (n - 1)
    return some ⟨bigString v⟩
  else
    return none

/-- The method `cacheCopy`. -/
def Tribo.cacheCopy (t : Tribo) : List Int := t.cache

/-- The method `appendToCache`. -/
def Tribo.appendToCache (t : Tribo) (temp : List Int) : Tribo :=
  if temp.length > t.cache.length then
    { t with cache := t.cache ++ temp.drop t.cache.length }
  else t

/-- The method `getCacheLength`. -/
def Tribo.getCacheLength (t : Tribo) : Int := t.cache.length

/-- The variables of the loop in `Get`. -/
structure LoopState where
  l : Int
  n1 : Int
  n2 : Int
  n3 : Int
  tempCache : List Int
  deriving DecidableEq, Repr

/-- The body of the goroutine of one loop iteration, followed by `l++`. -/
def loopBody (cacheSizeLimit : Int) (s : LoopState) : LoopState :=
  -- n1.Add(n1, n2).Add(n1, n3)
  let sum := s.n1 + s.n2 + s.n3
  -- n1, n2, n3 = n2, n3, n1
  let n1 := s.n2
  let n2 := s.n3
  let n3 := sum
  let tempCache := if s.l < cacheSizeLimit then s.tempCache ++ [n3] else s.tempCache
  { l := s.l + 1, n1 := n1, n2 := n2, n3 := n3, tempCache := tempCache }

/-- The `select` of loop iteration `k`: `some e` when `case <-ctx.Done()` is taken
and `ctx.Err()` is `e`, `none` when `case <-compute` is taken. -/
def selectDone (ctx : Context) (sched : Sched) (k : Nat) : Option Error :=
  match ctx k with
  | some e => if sched k then none else some e
  | none => none

/-- The loop `for l := len(tempCache); n > l; l++` of `Get`, started at iteration
`k` in state `s`.  The first argument bounds the number of iterations; `Get` passes
`n - l`, the exact number of iterations left. -/
def loop (cacheSizeLimit : Int) (ctx : Context) (sched : Sched) (n : Int) :
    Nat → Nat → LoopState → Except Error LoopState
  | 0, _, s => .ok s
  | iters + 1, k, s =>
    if n > s.l then
      match selectDone ctx sched k with
      | some e => .error e
      | none => loop cacheSizeLimit ctx sched n iters (k + 1) (loopBody cacheSizeLimit s)
    else .ok s

/-- What a call of `Get` gives back: `(&Result, nil)`, `(nil, err)`, or a panic. -/
inductive Return where
  | result (r : Result)
  | err (e : Error)
  | panic (msg : String)
  deriving DecidableEq, Repr

/-- The outcome of a call of `Get`: what it returns, and the argument of the
goroutine `go t.appendToCache(tempCache)` when one was started. -/
structure GetOutcome where
  ret : Return
  merge : Option (List Int)
  deriving DecidableEq, Repr

/-- The slow path of `Get` (from `lastThree(tempCache)` on) as a function of the
snapshot `tempCache` returned by `cacheCopy`. -/
def slowPath (cacheSizeLimit : Int) (ctx : Context) (sched : Sched) (n : Int)
    (tempCache : List Int) : GetOutcome :=
  match lastThree tempCache with
  | .error msg => { ret := .panic msg, merge := none }
  | .ok (n1, n2, n3) =>
    let l : Int := tempCache.length
    match loop cacheSizeLimit ctx sched n (n - l).toNat 0
        { l := l, n1 := n1, n2 := n2, n3 := n3, tempCache := tempCache } with
    | .error e => { ret := .err e, merge := none }
    | .ok s => { ret := .result ⟨bigString s.n3⟩, merge := some s.tempCache }

/-- The method `Get`, with `cacheValue` and `cacheCopy` reading the same cache. -/
def Tribo.Get (t : Tribo) (ctx : Context) (sched : Sched) (n : Int) : GetOutcome :=
  if n ≤ 0 then
    { ret := .err (Error.New "N should be a positive integer"), merge := none }
  else
    match t.cacheValue n with
    | .error msg => { ret := .panic msg, merge := none }
    | .ok (some value) => { ret := .result value, merge := none }
    | .ok none => slowPath t.cacheSizeLimit ctx sched n t.cacheCopy

/-- The method `Get` when the cache may be extended between its two reads:
`cacheValue` reads the engine `t`, `cacheCopy` reads the later engine `later`. -/
def Tribo.GetRaced (t later : Tribo) (ctx : Context) (sched : Sched) (n : Int) :
    GetOutcome :=
  if n ≤ 0 then
    { ret := .err (Error.New "N should be a positive integer"), merge := none }
  else
    match t.cacheValue n with
    | .error msg => { ret := .panic msg, merge := none }
    | .ok (some value) => { ret := .result value, merge := none }
    | .ok none => slowPath later.cacheSizeLimit ctx sched n later.cacheCopy

/-- The engine after a call of `Get` and the completion of the merge it scheduled. -/
def Tribo.afterGet (t : Tribo) (ctx : Context) (sched : Sched) (n : Int) : Tribo :=
  match (t.Get ctx sched n).merge with
  | some temp => t.appendToCache temp
  | none => t

/-! ## The sequence of the spec -/

/-- The recurrence of the spec, 1-indexed: `T 1 = 0`, `T 2 = 0`, `T 3 = 1` and
`T i = T (i-1) + T (i-2) + T (i-3)` for `i > 3`.  Index 0 is not part of the
sequence; `T 0` is set to 0. -/
def T : Nat → Int
  | 0 => 0
  | 1 => 0
  | 2 => 0
  | 3 => 1
  | i + 4 => T (i + 3) + T (i + 2) + T (i + 1)

/-- The first `k` terms `T 1, ..., T k` of the sequence. -/
def tribSeq (k : Nat) : List Int := (List.range k).map fun i => T (i + 1)

/-! ## Contexts and schedulers used as examples -/

/-- The scheduler under which no `select` finds `compute` ready before `Done`. -/
def doneFirst : Sched := fun _ => false

/-- The scheduler under which every `select` finds `compute` ready and chooses it. -/
def computeFirst : Sched := fun _ => true

/-! ## Reachable engine states -/

/-- The engine states reachable from `New limit`.  The cache changes only when a
merge goroutine `appendToCache temp` runs; `temp` is the slice built by the slow
path of some call of `Get` from the snapshot that call took of a reachable engine
`s` (whatever older cache its `cacheValue` had read).  The merge may run later, on
another reachable engine `t`; a call followed at once by its own merge is the case
`s = t`, see `Reachable.afterGet`. -/
inductive Reachable (limit : Int) : Tribo → Prop
  | new : Reachable limit (New limit)
  | merge (t s : Tribo) (ctx : Context) (sched : Sched) (n : Int) (temp : List Int) :
      Reachable limit t → Reachable limit s →
      (slowPath s.cacheSizeLimit ctx sched n s.cacheCopy).merge = some temp →
      Reachable limit (t.appendToCache temp)

/-! ## Auxiliary definitions for the proofs -/

/-- Length of the private list when the loop counter is `j`, for a snapshot of
length `L`: terms are appended while the counter is below the limit. -/
def tempLen (L : Nat) (limit : Int) (j : Nat) : Nat := max L (min j limit.toNat)

/-- The loop state at counter `j` when the snapshot was `tribSeq L`. -/
def trState (L : Nat) (limit : Int) (j : Nat) : LoopState :=
  { l := j, n1 := T (j - 2), n2 := T (j - 1), n3 := T j,
    tempCache := tribSeq (tempLen L limit j) }

/-- The invariant: the limit is the one given to `New`, and the cache is the list
of the first `k` terms for some `k` from 3 up to the larger of 3 and the limit. -/
def Inv (limit : Int) (t : Tribo) : Prop :=
  t.cacheSizeLimit = limit ∧
    ∃ k : Nat, 3 ≤ k ∧ (k : Int) ≤ max 3 limit ∧ t.cache = tribSeq k

/-! ## Bounds checks of the merge -/

/-- Go slice expression `s[lo:]`: panics unless `0 <= lo <= len(s)`. -/
def sliceFrom (s : List Int) (lo : Int) : Except String (List Int) :=
  if 0 ≤ lo ∧ lo ≤ s.length then .ok (s.drop lo.toNat)
  else .error "slice bounds out of range"

/-- The method `appendToCache` with the bounds check of its slice expression
`temp[len(t.cache):]` made explicit. -/
def Tribo.appendToCacheChecked (t : Tribo) (temp : List Int) : Except String Tribo :=
  if temp.length > t.cache.length then
    match sliceFrom temp t.cache.length with
    | .ok suffix => .ok { t with cache := t.cache ++ suffix }
    | .error msg => .error msg
  else .ok t

/-! ## The extender as the spec words it -/

/-- The extension step in the words of the spec: the new term is appended to the
private list while the length of the private list is below the size limit.  The
source tests the loop counter instead, see `loopBody`. -/
def loopBodySpec (cacheSizeLimit : Int) (s : LoopState) : LoopState :=
  let next := s.n1 + s.n2 + s.n3
  let tempCache :=
    if (s.tempCache.length : Int) < cacheSizeLimit then s.tempCache ++ [next] else s.tempCache
  { l := s.l + 1, n1 := s.n2, n2 := s.n3, n3 := next, tempCache := tempCache }

/-- The loop of `Get` with the extension step of the spec. -/
def loopSpec (cacheSizeLimit : Int) (ctx : Context) (sched : Sched) (n : Int) :
    Nat → Nat → LoopState → Except Error LoopState
  | 0, _, s => .ok s
  | iters + 1, k, s =>
    if n > s.l then
      match selectDone ctx sched k with
      | some e => .error e
      | none =>
        loopSpec cacheSizeLimit ctx sched n iters (k + 1) (loopBodySpec cacheSizeLimit s)
    else .ok s

/-- The slow path of `Get` with the extension step of the spec. -/
def slowPathSpec (cacheSizeLimit : Int) (ctx : Context) (sched : Sched) (n : Int)
    (tempCache : List Int) : GetOutcome :=
  match lastThree tempCache with
  | .error msg => { ret := .panic msg, merge := none }
  | .ok (n1, n2, n3) =>
    let l : Int := tempCache.length
    match loopSpec cacheSizeLimit ctx sched n (n - l).toNat 0
        { l := l, n1 := n1, n2 := n2, n3 := n3, tempCache := tempCache } with
    | .error e => { ret := .err e, merge := none }
    | .ok s => { ret := .result ⟨bigString s.n3⟩, merge := some s.tempCache }

/-- The loop counter and the private list are aligned: below the limit the counter
is the length of the list, and from the limit on the list has reached the limit. -/
def Aligned (cacheSizeLimit : Int) (s : LoopState) : Prop :=
  (s.l < cacheSizeLimit → (s.tempCache.length : Int) = s.l) ∧
  (cacheSizeLimit ≤ s.l → cacheSizeLimit ≤ (s.tempCache.length : Int))

/-! ## Lemmas on the sequence -/

theorem T_add_four (i : Nat) : T (i + 4) = T (i + 3) + T (i + 2) + T (i + 1) := by
  simp [T]

theorem tribSeq_length (k : Nat) : (tribSeq k).length = k := by
  simp [tribSeq]

theorem tribSeq_succ (k : Nat) : tribSeq (k + 1) = tribSeq k ++ [T (k + 1)] := by
  simp [tribSeq, List.range_succ]

theorem tribSeq_getElem? (k i : Nat) (h : i < k) : (tribSeq k)[i]? = some (T (i + 1)) := by
  simp [tribSeq, List.getElem?_range, h]

theorem tribSeq_split {k m : Nat} (h : k ≤ m) : ∃ r, tribSeq m = tribSeq k ++ r := by
  induction m with
  | zero =>
    have : k = 0 := by omega
    subst this
    exact ⟨[], by simp⟩
  | succ m ih =>
    by_cases hk : k = m + 1
    · subst hk
      exact ⟨[], by simp⟩
    · obtain ⟨r, hr⟩ := ih (by omega)
      exact ⟨r ++ [T (m + 1)], by rw [tribSeq_succ, hr, List.append_assoc]⟩

theorem tribSeq_append_drop {k m : Nat} (h : k ≤ m) :
    tribSeq k ++ (tribSeq m).drop k = tribSeq m := by
  obtain ⟨r, hr⟩ := tribSeq_split h
  rw [hr, List.drop_left' (tribSeq_length k)]

theorem index_tribSeq (k i : Nat) (h : i < k) : index (tribSeq k) (i : Int) = .ok (T (i + 1)) := by
  simp [index, tribSeq_getElem? k i h]

theorem lastThree_tribSeq (L : Nat) (h : 3 ≤ L) :
    lastThree (tribSeq L) = .ok (T (L - 2), T (L - 1), T L) := by
  obtain ⟨j, rfl⟩ : ∃ j, L = j + 3 := ⟨L - 3, by omega⟩
  have h1 : ((j + 3 : Nat) : Int) - 3 = (j : Nat) := by omega
  have h2 : ((j + 3 : Nat) : Int) - 2 = ((j + 1 : Nat) : Int) := by omega
  have h3 : ((j + 3 : Nat) : Int) - 1 = ((j + 2 : Nat) : Int) := by omega
  have hl : ¬ (((j + 3 : Nat) : Int) < 3) := by omega
  simp only [lastThree, tribSeq_length, hl, if_false, h1, h2, h3]
  rw [index_tribSeq _ _ (by omega), index_tribSeq _ _ (by omega), index_tribSeq _ _ (by omega)]
  rfl

/-! ## Lemmas on the loop of `Get` -/

theorem loopBody_trState (L : Nat) (limit : Int) (j : Nat) (hj : 3 ≤ j) (hL : L ≤ j) :
    loopBody limit (trState L limit j) = trState L limit (j + 1) := by
  obtain ⟨i, rfl⟩ : ∃ i, j = i + 3 := ⟨j - 3, by omega⟩
  have e1 : i + 3 - 2 = i + 1 := by omega
  have e2 : i + 3 - 1 = i + 2 := by omega
  have e3 : i + 3 + 1 - 2 = i + 2 := by omega
  have e4 : i + 3 + 1 - 1 = i + 3 := by omega
  have hsum : T (i + 1) + T (i + 2) + T (i + 3) = T (i + 3 + 1) := by
    rw [show i + 3 + 1 = i + 4 from rfl, T_add_four]; ring
  simp only [loopBody, trState, e1, e2, e3, e4, hsum]
  by_cases hlim : ((i + 3 : Nat) : Int) < limit
  · have h1 : tempLen L limit (i + 3) = i + 3 := by
      unfold tempLen; omega
    have h2 : tempLen L limit (i + 3 + 1) = i + 3 + 1 := by
      unfold tempLen; omega
    simp only [hlim, if_true, h1, h2, tribSeq_succ]
    push_cast
    rfl
  · have h1 : tempLen L limit (i + 3 + 1) = tempLen L limit (i + 3) := by
      unfold tempLen; omega
    simp only [hlim, if_false, h1]
    push_cast
    rfl

/-- The loop started on a tribonacci state either is cancelled or runs up to `n`. -/
theorem loop_trState (L : Nat) (limit : Int) (ctx : Context) (sched : Sched) (n : Int) :
    ∀ (iters k j : Nat), 3 ≤ j → L ≤ j → iters = (n - j).toNat →
      (∃ e, loop limit ctx sched n iters k (trState L limit j) = .error e) ∨
      loop limit ctx sched n iters k (trState L limit j) = .ok (trState L limit (j + iters)) := by
  intro iters
  induction iters with
  | zero => intro k j _ _ _; right; rfl
  | succ iters ih =>
    intro k j hj hL hit
    have hn : n > (trState L limit j).l := by
      show n > (j : Int)
      omega
    simp only [loop, hn, if_true]
    cases hsel : selectDone ctx sched k with
    | some e => left; exact ⟨e, rfl⟩
    | none =>
      simp only [loopBody_trState L limit j hj hL]
      have := ih (k + 1) (j + 1) (by omega) (by omega) (by push_cast; omega)
      rw [show j + (iters + 1) = j + 1 + iters by omega]
      exact this

/-- When no `select` takes the `Done` case, the loop runs up to `n`. -/
theorem loop_run (L : Nat) (limit : Int) (ctx : Context) (sched : Sched) (n : Int) :
    ∀ (iters k j : Nat), 3 ≤ j → L ≤ j → iters = (n - j).toNat →
      (∀ i, i < iters → selectDone ctx sched (k + i) = none) →
      loop limit ctx sched n iters k (trState L limit j) = .ok (trState L limit (j + iters)) := by
  intro iters
  induction iters with
  | zero => intro k j _ _ _ _; rfl
  | succ iters ih =>
    intro k j hj hL hit hsel
    have hn : n > (trState L limit j).l := by
      show n > (j : Int)
      omega
    have h0 : selectDone ctx sched k = none := by simpa using hsel 0 (by omega)
    simp only [loop, hn, if_true, h0, loopBody_trState L limit j hj hL]
    rw [show j + (iters + 1) = j + 1 + iters by omega]
    apply ih (k + 1) (j + 1) (by omega) (by omega) (by push_cast; omega)
    intro i hi
    have := hsel (i + 1) (by omega)
    rwa [show k + (i + 1) = k + 1 + i by omega] at this

/-- When the `select` of iteration `k + k0` is the first to take the `Done` case and
the loop has more than `k0` iterations to run, the loop returns the context error. -/
theorem loop_cancel (limit : Int) (ctx : Context) (sched : Sched) (n : Int) (e : Error) :
    ∀ (k0 iters k : Nat) (s : LoopState), k0 < iters → (k0 : Int) < n - s.l →
      (∀ i, i < k0 → selectDone ctx sched (k + i) = none) →
      selectDone ctx sched (k + k0) = some e →
      loop limit ctx sched n iters k s = .error e := by
  intro k0
  induction k0 with
  | zero =>
    intro iters k s hit hn _ hsel
    obtain ⟨m, rfl⟩ : ∃ m, iters = m + 1 := ⟨iters - 1, by omega⟩
    have hn2 : n > s.l := by push_cast at hn; omega
    have hsel2 : selectDone ctx sched k = some e := by simpa using hsel
    simp only [loop, hn2, if_true, hsel2]
  | succ k0 ih =>
    intro iters k s hit hn hnone hsel
    obtain ⟨m, rfl⟩ : ∃ m, iters = m + 1 := ⟨iters - 1, by omega⟩
    have hn2 : n > s.l := by push_cast at hn; omega
    have h0 : selectDone ctx sched k = none := by simpa using hnone 0 (by omega)
    simp only [loop, hn2, if_true, h0]
    apply ih m (k + 1) (loopBody limit s) (by omega)
    · show (k0 : Int) < n - (s.l + 1)
      push_cast at hn; omega
    · intro i hi
      have := hnone (i + 1) (by omega)
      rwa [show k + (i + 1) = k + 1 + i by omega] at this
    · rwa [show k + (k0 + 1) = k + 1 + k0 by omega] at hsel

/-- The iteration bound is never what stops the loop: it ends with `n > l` false. -/
theorem loop_stops (limit : Int) (ctx : Context) (sched : Sched) (n : Int) :
    ∀ (iters k : Nat) (s r : LoopState), (n - s.l).toNat ≤ iters →
      loop limit ctx sched n iters k s = .ok r → ¬ n > r.l := by
  intro iters
  induction iters with
  | zero =>
    intro k s r hit h
    simp only [loop, Except.ok.injEq] at h
    subst h
    omega
  | succ iters ih =>
    intro k s r hit h
    by_cases hn : n > s.l
    · simp only [loop, hn, if_true] at h
      cases hsel : selectDone ctx sched k with
      | some e => simp [hsel] at h
      | none =>
        simp only [hsel] at h
        apply ih (k + 1) (loopBody limit s) r _ h
        show (n - (s.l + 1)).toNat ≤ iters
        omega
    · simp only [loop, hn, if_false, Except.ok.injEq] at h
      subst h
      exact hn

/-! ## Lemmas on the slow path and on the merge -/

/-- The slow path on a tribonacci snapshot is cancelled, or it returns the term at
the index where the loop stops and schedules the merge of a tribonacci list. -/
theorem slowPath_tribSeq (limit : Int) (ctx : Context) (sched : Sched) (n : Int) (L : Nat)
    (hL : 3 ≤ L) :
    (∃ e, slowPath limit ctx sched n (tribSeq L) = { ret := .err e, merge := none }) ∨
    slowPath limit ctx sched n (tribSeq L) =
      { ret := .result ⟨bigString (T (L + (n - L).toNat))⟩,
        merge := some (tribSeq (tempLen L limit (L + (n - L).toNat))) } := by
  have h0 : tribSeq L = (trState L limit L).tempCache := by
    have : tempLen L limit L = L := by unfold tempLen; omega
    simp [trState, this]
  have hst : LoopState.mk (L : Int) (T (L - 2)) (T (L - 1)) (T L) (tribSeq L) =
      trState L limit L := by
    rw [h0]; rfl
  simp only [slowPath, lastThree_tribSeq L hL, tribSeq_length, hst]
  rcases loop_trState L limit ctx sched n (n - L).toNat 0 L hL (le_refl L) rfl with ⟨e, he⟩ | h
  · left; exact ⟨e, by rw [he]⟩
  · right; rw [h]; rfl

/-- The slow path on a tribonacci snapshot when no `select` takes the `Done` case. -/
theorem slowPath_tribSeq_run (limit : Int) (ctx : Context) (sched : Sched) (n : Int) (L : Nat)
    (hL : 3 ≤ L) (hsel : ∀ i : Nat, (i : Int) < n - L → selectDone ctx sched i = none) :
    slowPath limit ctx sched n (tribSeq L) =
      { ret := .result ⟨bigString (T (L + (n - L).toNat))⟩,
        merge := some (tribSeq (tempLen L limit (L + (n - L).toNat))) } := by
  have h0 : tribSeq L = (trState L limit L).tempCache := by
    have : tempLen L limit L = L := by unfold tempLen; omega
    simp [trState, this]
  have hst : LoopState.mk (L : Int) (T (L - 2)) (T (L - 1)) (T L) (tribSeq L) =
      trState L limit L := by
    rw [h0]; rfl
  simp only [slowPath, lastThree_tribSeq L hL, tribSeq_length, hst]
  rw [loop_run L limit ctx sched n (n - L).toNat 0 L hL (le_refl L) rfl]
  · rfl
  · intro i hi
    rw [Nat.zero_add]
    exact hsel i (by omega)

/-- The slow path on a tribonacci snapshot when the `select` of iteration `k0` is
the first to take the `Done` case, before the loop has reached `n`. -/
theorem slowPath_tribSeq_cancel (limit : Int) (ctx : Context) (sched : Sched) (n : Int)
    (L : Nat) (hL : 3 ≤ L) (e : Error) (k0 : Nat) (hk : (k0 : Int) < n - L)
    (hnone : ∀ i, i < k0 → selectDone ctx sched i = none)
    (hsel : selectDone ctx sched k0 = some e) :
    slowPath limit ctx sched n (tribSeq L) = { ret := .err e, merge := none } := by
  simp only [slowPath, lastThree_tribSeq L hL, tribSeq_length]
  rw [loop_cancel limit ctx sched n e k0 (n - L).toNat 0 _ (by omega) hk
    (by intro i hi; rw [Nat.zero_add]; exact hnone i hi) (by rw [Nat.zero_add]; exact hsel)]

theorem selectDone_neverFires (ctx : Context) (hctx : NeverFires ctx) (sched : Sched) (k : Nat) :
    selectDone ctx sched k = none := by
  simp [selectDone, hctx k]

/-- Merging a tribonacci list into a tribonacci cache keeps the longer of the two. -/
theorem appendToCache_tribSeq (k m : Nat) (limit : Int) :
    ({ cache := tribSeq k, cacheSizeLimit := limit } : Tribo).appendToCache (tribSeq m) =
      { cache := tribSeq (max k m), cacheSizeLimit := limit } := by
  by_cases h : m > k
  · have hmax : max k m = m := by omega
    simp only [Tribo.appendToCache, tribSeq_length, h, if_true, hmax,
      tribSeq_append_drop (Nat.le_of_lt h)]
  · have hmax : max k m = k := by omega
    simp only [Tribo.appendToCache, tribSeq_length, h, if_false, hmax]

/-- The cache of an engine is a prefix of the cache after any merge. -/
theorem appendToCache_extends (t : Tribo) (temp : List Int) :
    t.cache <+: (t.appendToCache temp).cache := by
  unfold Tribo.appendToCache
  split
  · exact List.prefix_append _ _
  · exact List.prefix_refl _

theorem appendToCache_limit (t : Tribo) (temp : List Int) :
    (t.appendToCache temp).cacheSizeLimit = t.cacheSizeLimit := by
  unfold Tribo.appendToCache
  split <;> rfl

/-! ## The invariant of reachable engines -/

theorem Inv_eq {limit : Int} {t : Tribo} (h : Inv limit t) :
    ∃ k : Nat, 3 ≤ k ∧ (k : Int) ≤ max 3 limit ∧
      t = { cache := tribSeq k, cacheSizeLimit := limit } := by
  obtain ⟨h1, k, h2, h3, h4⟩ := h
  refine ⟨k, h2, h3, ?_⟩
  cases t
  simp only at h1 h4
  rw [h1, h4]

theorem Reachable.inv {limit : Int} {t : Tribo} (h : Reachable limit t) : Inv limit t := by
  induction h with
  | new => exact ⟨rfl, 3, le_refl 3, by omega, rfl⟩
  | merge t s ctx sched n temp _ _ hm iht ihs =>
    obtain ⟨k, hk3, hkl, rfl⟩ := Inv_eq iht
    obtain ⟨L, hL3, hLl, rfl⟩ := Inv_eq ihs
    simp only [Tribo.cacheCopy] at hm
    rcases slowPath_tribSeq limit ctx sched n L hL3 with ⟨e, he⟩ | hr
    · rw [he] at hm; simp at hm
    · rw [hr] at hm
      simp only [Option.some.injEq] at hm
      subst hm
      rw [appendToCache_tribSeq]
      refine ⟨rfl, _, by omega, ?_, rfl⟩
      unfold tempLen
      omega

/-- A call of `Get` followed at once by its merge leads to a reachable engine. -/
theorem Reachable.afterGet {limit : Int} {t : Tribo} (h : Reachable limit t)
    (ctx : Context) (sched : Sched) (n : Int) : Reachable limit (t.afterGet ctx sched n) := by
  unfold Tribo.afterGet
  cases hm : (t.Get ctx sched n).merge with
  | none => exact h
  | some temp =>
    refine Reachable.merge t t ctx sched n temp h h ?_
    unfold Tribo.Get at hm
    split at hm
    · simp at hm
    · split at hm
      · simp at hm
      · simp at hm
      · exact hm

/-! ## Lemmas on `Get` -/

theorem cacheValue_hit (k : Nat) (limit n : Int) (h1 : 1 ≤ n) (h2 : n ≤ k) :
    ({ cache := tribSeq k, cacheSizeLimit := limit } : Tribo).cacheValue n =
      .ok (some ⟨bigString (T n.toNat)⟩) := by
  obtain ⟨i, rfl⟩ : ∃ i : Nat, n = ((i + 1 : Nat) : Int) := ⟨(n - 1).toNat, by omega⟩
  have hi : ((i + 1 : Nat) : Int) - 1 = (i : Int) := by omega
  have hle : ((i + 1 : Nat) : Int) ≤ ((tribSeq k).length : Int) := by
    rw [tribSeq_length]; exact h2
  simp only [Tribo.cacheValue, hle, if_true, hi]
  rw [index_tribSeq k i (by omega)]
  rfl

theorem cacheValue_miss (t : Tribo) (n : Int) (h : (t.cache.length : Int) < n) :
    t.cacheValue n = .ok none := by
  have : ¬ n ≤ (t.cache.length : Int) := by omega
  simp only [Tribo.cacheValue, this, if_false]
  rfl

theorem Get_nonpos (t : Tribo) (ctx : Context) (sched : Sched) (n : Int) (h : n ≤ 0) :
    t.Get ctx sched n =
      { ret := .err (Error.New "N should be a positive integer"), merge := none } := by
  simp only [Tribo.Get, h, if_true]

theorem Get_hit (k : Nat) (limit : Int) (ctx : Context) (sched : Sched) (n : Int)
    (h1 : 1 ≤ n) (h2 : n ≤ k) :
    ({ cache := tribSeq k, cacheSizeLimit := limit } : Tribo).Get ctx sched n =
      { ret := .result ⟨bigString (T n.toNat)⟩, merge := none } := by
  have h0 : ¬ n ≤ 0 := by omega
  simp only [Tribo.Get, h0, if_false, cacheValue_hit k limit n h1 h2]

theorem Get_miss (t : Tribo) (ctx : Context) (sched : Sched) (n : Int)
    (h : (t.cache.length : Int) < n) :
    t.Get ctx sched n = slowPath t.cacheSizeLimit ctx sched n t.cacheCopy := by
  have h0 : ¬ n ≤ 0 := by omega
  simp only [Tribo.Get, h0, if_false, cacheValue_miss t n h]

/-- On a tribonacci cache, when no `select` takes the `Done` case, `Get` returns
the term of index `n`. -/
theorem Get_run (k : Nat) (hk : 3 ≤ k) (limit : Int) (ctx : Context) (sched : Sched) (n : Int)
    (h1 : 1 ≤ n) (hsel : ∀ i : Nat, (i : Int) < n - k → selectDone ctx sched i = none) :
    (({ cache := tribSeq k, cacheSizeLimit := limit } : Tribo).Get ctx sched n).ret =
      .result ⟨bigString (T n.toNat)⟩ := by
  by_cases h2 : n ≤ k
  · rw [Get_hit k limit ctx sched n h1 h2]
  · rw [Get_miss _ ctx sched n (by rw [tribSeq_length]; omega)]
    simp only [Tribo.cacheCopy]
    rw [slowPath_tribSeq_run limit ctx sched n k hk hsel]
    have : k + (n - k).toNat = n.toNat := by omega
    rw [this]

/-- On a reachable engine, with a context that never fires, `Get` returns the term
of index `n`. -/
theorem Get_neverFires {limit : Int} {t : Tribo} (ht : Reachable limit t) (ctx : Context)
    (hctx : NeverFires ctx) (sched : Sched) (n : Int) (h1 : 1 ≤ n) :
    (t.Get ctx sched n).ret = .result ⟨bigString (T n.toNat)⟩ := by
  obtain ⟨k, hk3, _, rfl⟩ := Inv_eq ht.inv
  exact Get_run k hk3 limit ctx sched n h1 (fun i _ => selectDone_neverFires ctx hctx sched i)

/-- The slow path schedules a merge exactly when it returns a `Result`. -/
theorem slowPath_merge (limit : Int) (ctx : Context) (sched : Sched) (n : Int)
    (temp : List Int) :
    (∃ r m, slowPath limit ctx sched n temp = { ret := .result r, merge := some m }) ∨
    ((slowPath limit ctx sched n temp).merge = none ∧
      ∀ r, (slowPath limit ctx sched n temp).ret ≠ .result r) := by
  unfold slowPath
  cases lastThree temp with
  | error msg => right; exact ⟨rfl, fun r h => by cases h⟩
  | ok v =>
    obtain ⟨a, b, c⟩ := v
    dsimp only
    cases loop limit ctx sched n (n - (temp.length : Int)).toNat 0
        { l := (temp.length : Int), n1 := a, n2 := b, n3 := c, tempCache := temp } with
    | error e => right; exact ⟨rfl, fun r h => by cases h⟩
    | ok s => left; exact ⟨_, _, rfl⟩

/-- Whenever `Get` does not return a `Result`, it has scheduled no merge. -/
theorem Get_merge_none (t : Tribo) (ctx : Context) (sched : Sched) (n : Int)
    (h : ∀ r, (t.Get ctx sched n).ret ≠ .result r) : (t.Get ctx sched n).merge = none := by
  unfold Tribo.Get at h ⊢
  split
  · rfl
  · rename_i hn
    simp only [hn, if_false] at h
    split
    · rfl
    · rfl
    · rename_i hv
      simp only [hv] at h
      rcases slowPath_merge t.cacheSizeLimit ctx sched n t.cacheCopy with ⟨r, m, hr⟩ | ⟨hm, _⟩
      · rw [hr] at h
        exact absurd rfl (h r)
      · exact hm

theorem afterGet_of_merge_none (t : Tribo) (ctx : Context) (sched : Sched) (n : Int)
    (h : (t.Get ctx sched n).merge = none) : t.afterGet ctx sched n = t := by
  simp only [Tribo.afterGet, h]

/-! ## Correctness of `Get` -/

theorem neverFires_Background : NeverFires Background := fun _ => rfl

/-- C1: on every engine reachable from `New cacheSizeLimit`, for every `n >= 1`,
every context that never fires and every scheduler, `Get n` returns a `Result` and
no error, and the `Value` of that `Result` is the decimal representation of `T n`,
the term of the recurrence over the unbounded integers: it is "1" for `n = 4`, "44"
for `n = 10` and "8646064" for `n = 30`.  The index `n` may lie within the cache,
beyond the cache or beyond `cacheSizeLimit`. -/
theorem Get_returns_T (cacheSizeLimit : Int) (t : Tribo) (ht : Reachable cacheSizeLimit t)
    (ctx : Context) (hctx : NeverFires ctx) (sched : Sched) (n : Int) (hn : 1 ≤ n) :
    (t.Get ctx sched n).ret = .result ⟨toString (T n.toNat)⟩ ∧
    (n = 4 → (t.Get ctx sched n).ret = .result ⟨"1"⟩) ∧
    (n = 10 → (t.Get ctx sched n).ret = .result ⟨"44"⟩) ∧
    (n = 30 → (t.Get ctx sched n).ret = .result ⟨"8646064"⟩) := by
  have h := Get_neverFires ht ctx hctx sched n hn
  refine ⟨h, ?_, ?_, ?_⟩
  · intro h4; subst h4; rw [h]; decide
  · intro h10; subst h10; rw [h]; decide
  · intro h30; subst h30; rw [h]; decide

/-- Witness of C1: `Get 30` on the fresh engine `New 20`, beyond the cache and beyond
the limit, with `context.Background()`. -/
theorem Get_returns_T_witness :
    Reachable 20 (New 20) ∧ NeverFires Background ∧ (1 : Int) ≤ 30 ∧
    ((New 20).Get Background doneFirst 30).ret = .result ⟨"8646064"⟩ :=
  ⟨Reachable.new, neverFires_Background, by decide,
    (Get_returns_T 20 (New 20) Reachable.new Background neverFires_Background doneFirst 30
      (by decide)).2.2.2 rfl⟩

/-- C2: `Get 4` returns "4" instead of "1" when the cache grows between its two
reads.  On `New 10` the lookup `cacheValue 4` misses; a concurrent `Get 6` then
merges its terms, so that the cache is `[0, 0, 1, 1, 2, 4]`; `cacheCopy` returns that
longer snapshot, `lastThree` gives `(1, 2, 4)`, the loop does not run since
`4 > 6` is false, and `n3.String()` is the decimal of `T 6`, not of `T 4`. -/
theorem GetRaced_stale_snapshot :
    (New 10).cacheValue 4 = .ok none ∧
    ((New 10).afterGet Background doneFirst 6).cache = [0, 0, 1, 1, 2, 4] ∧
    [0, 0, 1, 1, 2, 4] = tribSeq 6 ∧
    slowPath 10 Background doneFirst 4 [0, 0, 1, 1, 2, 4] =
      { ret := .result ⟨"4"⟩, merge := some [0, 0, 1, 1, 2, 4] } ∧
    ((New 10).GetRaced ((New 10).afterGet Background doneFirst 6) Background doneFirst 4).ret =
      .result ⟨"4"⟩ ∧
    toString (T 4) = "1" ∧ toString (T 6) = "4" :=
  ⟨rfl, by decide, by decide, by decide, by decide, by decide, by decide⟩

/-- C3: on every reachable engine, with a context that never fires, `Get n` returns an
error exactly when `n <= 0`; and for `n <= 0` the outcome of `Get n` is the same on
every engine, with every context and scheduler: the error
"N should be a positive integer" with no `Result`, no merge scheduled, and the
engine (cache contents and length) unchanged. -/
theorem Get_error_iff_nonpos (limit : Int) (t : Tribo) (ht : Reachable limit t)
    (ctx : Context) (hctx : NeverFires ctx) (sched : Sched) (n : Int) :
    ((∃ e, (t.Get ctx sched n).ret = .err e) ↔ n ≤ 0) ∧
    (n ≤ 0 → ∀ (u : Tribo) (c : Context) (s : Sched),
      u.Get c s n =
        { ret := .err (Error.New "N should be a positive integer"), merge := none } ∧
      u.afterGet c s n = u ∧
      (u.afterGet c s n).cache.length = u.cache.length) := by
  constructor
  · constructor
    · rintro ⟨e, he⟩
      by_contra hpos
      rw [Get_neverFires ht ctx hctx sched n (by omega)] at he
      cases he
    · intro hn
      exact ⟨_, by rw [Get_nonpos t ctx sched n hn]⟩
  · intro hn u c s
    have hg := Get_nonpos u c s n hn
    have ha : u.afterGet c s n = u := afterGet_of_merge_none u c s n (by rw [hg])
    exact ⟨hg, ha, by rw [ha]⟩

/-- Witness of C3: `Get (-5)` on `New 20` returns the error and the cache keeps its
three entries. -/
theorem Get_error_iff_nonpos_witness :
    Reachable 20 (New 20) ∧ NeverFires Background ∧
    (New 20).Get Background doneFirst (-5) =
      { ret := .err (Error.New "N should be a positive integer"), merge := none } ∧
    ((New 20).afterGet Background doneFirst (-5)).cache = [0, 0, 1] :=
  ⟨Reachable.new, neverFires_Background,
    ((Get_error_iff_nonpos 20 (New 20) Reachable.new Background neverFires_Background
      doneFirst (-5)).2 (by decide) (New 20) Background doneFirst).1,
    by rw [((Get_error_iff_nonpos 20 (New 20) Reachable.new Background neverFires_Background
      doneFirst (-5)).2 (by decide) (New 20) Background doneFirst).2.1]; rfl⟩

/-! ## Cancellation -/

/-- With an already expired context, the first `select` at which the scheduler does
not let `compute` win takes the `Done` case, and no earlier one does. -/
theorem first_done (ctx : Context) (e : Error) (hex : ∀ k, ctx k = some e) (sched : Sched)
    (k0 : Nat) (hs : sched k0 = false) :
    ∃ k1, k1 ≤ k0 ∧ (∀ i, i < k1 → selectDone ctx sched i = none) ∧
      selectDone ctx sched k1 = some e := by
  have hex0 : ∃ k, sched k = false := ⟨k0, hs⟩
  refine ⟨Nat.find hex0, Nat.find_min' hex0 hs, ?_, ?_⟩
  · intro i hi
    have : ¬ sched i = false := Nat.find_min hex0 hi
    have hi2 : sched i = true := by simpa using this
    simp [selectDone, hex i, hi2]
  · have : sched (Nat.find hex0) = false := Nat.find_spec hex0
    simp [selectDone, hex _, this]

/-- Counterexample to C4 as stated: on the fresh engine `New 10`, `Get 4` lies beyond
the cache and the context is already expired, yet when the goroutine of the single
extension step has sent on `compute` before the `select` runs and the `select`
chooses that case, `Get` returns the `Result` "1" and schedules a merge, after
which the cache has four entries. -/
theorem Get_expired_may_succeed :
    Reachable 10 (New 10) ∧ ((New 10).cache.length : Int) < 4 ∧
    (New 10).Get Expired computeFirst 4 =
      { ret := .result ⟨"1"⟩, merge := some [0, 0, 1, 1] } ∧
    ((New 10).afterGet Expired computeFirst 4).cache = [0, 0, 1, 1] :=
  ⟨Reachable.new, by decide, by decide, by decide⟩

/-- C4 (amended): on every reachable engine, for every `n` greater than the cache
length and an already expired context with error `e`: if the `select` of at least
one extension step takes the `Done` case (step `k < n - len` with the scheduler not
letting `compute` win), `Get n` returns `e` and no `Result`, schedules no merge and
leaves the engine unchanged; if at every step `compute` wins, `Get n` returns the
decimal of `T n`.  More generally, whenever `Get` returns an error, no merge is
scheduled and the engine is unchanged. -/
theorem Get_cancelled (limit : Int) (t : Tribo) (ht : Reachable limit t) (ctx : Context)
    (e : Error) (hex : ∀ k, ctx k = some e) (sched : Sched) (n : Int)
    (hn : (t.cache.length : Int) < n) :
    ((∃ k : Nat, (k : Int) < n - t.cache.length ∧ sched k = false) →
      t.Get ctx sched n = { ret := .err e, merge := none } ∧ t.afterGet ctx sched n = t) ∧
    ((∀ k : Nat, (k : Int) < n - t.cache.length → sched k = true) →
      (t.Get ctx sched n).ret = .result ⟨toString (T n.toNat)⟩) ∧
    (∀ (c : Context) (s : Sched) (m : Int) (e1 : Error), (t.Get c s m).ret = .err e1 →
      (t.Get c s m).merge = none ∧ t.afterGet c s m = t) := by
  refine ⟨?_, ?_, ?_⟩
  · rintro ⟨k0, hk0, hs⟩
    obtain ⟨k1, hk1, hnone, hsel⟩ := first_done ctx e hex sched k0 hs
    have hg : t.Get ctx sched n = { ret := .err e, merge := none } := by
      rw [Get_miss t ctx sched n hn]
      obtain ⟨k, hk3, _, rfl⟩ := Inv_eq ht.inv
      simp only [Tribo.cacheCopy]
      simp only [tribSeq_length] at hk0
      exact slowPath_tribSeq_cancel limit ctx sched n k hk3 e k1 (by omega) hnone hsel
    exact ⟨hg, afterGet_of_merge_none t ctx sched n (by rw [hg])⟩
  · intro hall
    obtain ⟨k, hk3, _, rfl⟩ := Inv_eq ht.inv
    simp only [tribSeq_length] at hn hall
    apply Get_run k hk3 limit ctx sched n (by omega)
    intro i hi
    simp [selectDone, hex i, hall i hi]
  · intro c s m e1 he
    have hm : (t.Get c s m).merge = none :=
      Get_merge_none t c s m (fun r hr => by rw [he] at hr; cases hr)
    exact ⟨hm, afterGet_of_merge_none t c s m hm⟩

/-- Witness of C4 (amended): `Get 1000000` on `New 20` with an expired context, the
first `select` taking the `Done` case. -/
theorem Get_cancelled_witness :
    Reachable 20 (New 20) ∧ (∀ k, Expired k = some Error.DeadlineExceeded) ∧
    (((New 20).cache.length : Int) < 1000000) ∧
    (New 20).Get Expired doneFirst 1000000 =
      { ret := .err Error.DeadlineExceeded, merge := none } ∧
    (New 20).afterGet Expired doneFirst 1000000 = New 20 :=
  ⟨Reachable.new, fun _ => rfl, by decide,
    (Get_cancelled 20 (New 20) Reachable.new Expired Error.DeadlineExceeded (fun _ => rfl)
      doneFirst 1000000 (by decide)).1 ⟨0, by decide, rfl⟩⟩

/-! ## The size of the cache -/

/-- Counterexample to C5 as stated: the limit 1 is positive, yet after `Get 1` on
`New 1` the cache still holds its three seed entries, more than the limit. -/
theorem cache_exceeds_small_limit :
    (0 : Int) < 1 ∧ Reachable 1 (New 1) ∧ (1 : Int) ≤ 1 ∧
    (((New 1).afterGet Background doneFirst 1).cache.length : Int) = 3 ∧
    ¬ ((((New 1).afterGet Background doneFirst 1).cache.length : Int) ≤ 1) :=
  ⟨by decide, Reachable.new, by decide, by decide, by decide⟩

/-- C5 (amended): for every `cacheSizeLimit`, every reachable engine and every
`n >= 1`, after `Get n` and its merge the cache length does not exceed the larger of
3 (the seed length) and `cacheSizeLimit`, hence does not exceed `cacheSizeLimit`
when that is at least 3; and with a context that never fires `Get n` returns the
decimal of `T n`, also for `n > cacheSizeLimit`. -/
theorem cache_length_le_limit (cacheSizeLimit : Int) (t : Tribo)
    (ht : Reachable cacheSizeLimit t) (ctx : Context) (sched : Sched) (n : Int) (hn : 1 ≤ n) :
    ((t.afterGet ctx sched n).cache.length : Int) ≤ max 3 cacheSizeLimit ∧
    (3 ≤ cacheSizeLimit → ((t.afterGet ctx sched n).cache.length : Int) ≤ cacheSizeLimit) ∧
    (NeverFires ctx → (t.Get ctx sched n).ret = .result ⟨toString (T n.toNat)⟩) := by
  obtain ⟨_, k, _, hk, hc⟩ := (ht.afterGet ctx sched n).inv
  have hlen : ((t.afterGet ctx sched n).cache.length : Int) = k := by
    rw [hc, tribSeq_length]
  refine ⟨by omega, fun h3 => by omega, fun hctx => ?_⟩
  exact Get_neverFires ht ctx hctx sched n hn

/-- Witness of C5 (amended): `Get 1000` on `New 100` returns the term of index 1000
and leaves a cache of at most 100 entries. -/
theorem cache_length_le_limit_witness :
    Reachable 100 (New 100) ∧ (1 : Int) ≤ 1000 ∧
    (((New 100).afterGet Background doneFirst 1000).cache.length : Int) ≤ 100 ∧
    ((New 100).Get Background doneFirst 1000).ret = .result ⟨toString (T (1000 : Int).toNat)⟩ :=
  ⟨Reachable.new, by decide,
    (cache_length_le_limit 100 (New 100) Reachable.new Background doneFirst 1000
      (by decide)).2.1 (by decide),
    (cache_length_le_limit 100 (New 100) Reachable.new Background doneFirst 1000
      (by decide)).2.2 neverFires_Background⟩

/-! ## The fast path after a successful call -/

/-- C6: on every engine reachable from `New limit`, for every `n` with
`1 <= n <= limit`, when `Get n` returns a `Result` `r`, then after the completion of
its merge the cache length is at least `n`, and exactly `n` when the cache was
shorter than `n` before the call; a subsequent `Get n` is then served by the fast
path: `cacheValue n` hits with the same `Result`, `Get n` returns it with any context
and scheduler, schedules no merge and leaves the engine unchanged. -/
theorem Get_then_fast_path (limit : Int) (t : Tribo) (ht : Reachable limit t)
    (ctx : Context) (sched : Sched) (n : Int) (h1 : 1 ≤ n) (h2 : n ≤ limit) (r : Result)
    (hr : (t.Get ctx sched n).ret = .result r) :
    n ≤ ((t.afterGet ctx sched n).cache.length : Int) ∧
    ((t.cache.length : Int) < n → ((t.afterGet ctx sched n).cache.length : Int) = n) ∧
    (t.afterGet ctx sched n).cacheValue n = .ok (some r) ∧
    (∀ (c : Context) (s : Sched),
      (t.afterGet ctx sched n).Get c s n = { ret := .result r, merge := none } ∧
      ((t.afterGet ctx sched n).afterGet c s n) = t.afterGet ctx sched n) := by
  obtain ⟨k, hk3, _, rfl⟩ := Inv_eq ht.inv
  have key : ∃ k2 : Nat, n ≤ k2 ∧ ((k : Int) < n → (k2 : Int) = n) ∧
      r = ⟨bigString (T n.toNat)⟩ ∧
      Tribo.afterGet { cache := tribSeq k, cacheSizeLimit := limit } ctx sched n =
        { cache := tribSeq k2, cacheSizeLimit := limit } := by
    by_cases hle : n ≤ k
    · have hg := Get_hit k limit ctx sched n h1 hle
      rw [hg] at hr
      refine ⟨k, hle, fun h => by omega, ?_, afterGet_of_merge_none _ ctx sched n (by rw [hg])⟩
      simp only [Return.result.injEq] at hr
      exact hr.symm
    · have hg := Get_miss { cache := tribSeq k, cacheSizeLimit := limit } ctx sched n
        (by rw [tribSeq_length]; omega)
      simp only [Tribo.cacheCopy] at hg
      have hidx : k + (n - k).toNat = n.toNat := by omega
      rcases slowPath_tribSeq limit ctx sched n k hk3 with ⟨e, he⟩ | hs
      · rw [hg, he] at hr; cases hr
      · rw [hidx] at hs
        have hlen : tempLen k limit n.toNat = n.toNat := by unfold tempLen; omega
        rw [hlen] at hs
        rw [hg, hs] at hr
        simp only [Return.result.injEq] at hr
        refine ⟨n.toNat, by omega, fun _ => by omega, hr.symm, ?_⟩
        simp only [Tribo.afterGet, hg, hs, appendToCache_tribSeq]
        congr 2
        omega
  obtain ⟨k2, hk2, hex, rfl, hafter⟩ := key
  rw [hafter]
  have hg2 : ∀ (c : Context) (s : Sched),
      Tribo.Get { cache := tribSeq k2, cacheSizeLimit := limit } c s n =
        { ret := .result ⟨bigString (T n.toNat)⟩, merge := none } :=
    fun c s => Get_hit k2 limit c s n h1 hk2
  simp only [tribSeq_length]
  refine ⟨hk2, hex, cacheValue_hit k2 limit n h1 hk2, fun c s => ⟨hg2 c s, ?_⟩⟩
  exact afterGet_of_merge_none _ c s n (by rw [hg2 c s])

/-- Witness of C6: `New 100` then `Get 50` gives a cache of length 50, and a second
`Get 50` is a hit. -/
theorem Get_then_fast_path_witness :
    Reachable 100 (New 100) ∧ (1 : Int) ≤ 50 ∧ (50 : Int) ≤ 100 ∧
    ((New 100).Get Background doneFirst 50).ret = .result ⟨"1697490356184"⟩ ∧
    (((New 100).afterGet Background doneFirst 50).cache.length : Int) = 50 ∧
    ((New 100).afterGet Background doneFirst 50).cacheValue 50 =
      .ok (some ⟨"1697490356184"⟩) :=
  ⟨Reachable.new, by decide, by decide, by decide,
    (Get_then_fast_path 100 (New 100) Reachable.new Background doneFirst 50 (by decide)
      (by decide) ⟨"1697490356184"⟩ (by decide)).2.1 (by decide),
    (Get_then_fast_path 100 (New 100) Reachable.new Background doneFirst 50 (by decide)
      (by decide) ⟨"1697490356184"⟩ (by decide)).2.2.1⟩

/-! ## Invariants of the cache -/

theorem tribSeq_take_three (k : Nat) (hk : 3 ≤ k) : (tribSeq k).take 3 = [0, 0, 1] := by
  obtain ⟨r, hr⟩ := tribSeq_split hk
  rw [hr, List.take_left' (tribSeq_length 3)]
  rfl

theorem tribSeq_recurrence (k i : Nat) (h3 : 3 < i) (hi : i ≤ k) :
    ∃ a b c : Int, (tribSeq k)[i - 4]? = some a ∧ (tribSeq k)[i - 3]? = some b ∧
      (tribSeq k)[i - 2]? = some c ∧ (tribSeq k)[i - 1]? = some (c + b + a) := by
  obtain ⟨m, rfl⟩ : ∃ m, i = m + 4 := ⟨i - 4, by omega⟩
  refine ⟨T (m + 1), T (m + 2), T (m + 3), ?_, ?_, ?_, ?_⟩
  · rw [show m + 4 - 4 = m by omega]; exact tribSeq_getElem? k m (by omega)
  · rw [show m + 4 - 3 = m + 1 by omega]; exact tribSeq_getElem? k (m + 1) (by omega)
  · rw [show m + 4 - 2 = m + 2 by omega]; exact tribSeq_getElem? k (m + 2) (by omega)
  · rw [show m + 4 - 1 = m + 3 by omega, ← T_add_four]
    exact tribSeq_getElem? k (m + 3) (by omega)

/-- C7: in every engine reachable from `New limit` by calls of `Get` and merges, the
cache has at least three entries, its first three entries are 0, 0, 1, and for every
1-based index `i` with `3 < i <= length` the entry at `i` is the sum of the entries
at `i-1`, `i-2` and `i-3`; the cache is exactly the list `T 1, ..., T length`. -/
theorem cache_is_tribonacci (limit : Int) (t : Tribo) (ht : Reachable limit t) :
    3 ≤ t.cache.length ∧ t.cache.take 3 = [0, 0, 1] ∧
    (∀ i : Nat, 3 < i → i ≤ t.cache.length →
      ∃ a b c : Int, t.cache[i - 4]? = some a ∧ t.cache[i - 3]? = some b ∧
        t.cache[i - 2]? = some c ∧ t.cache[i - 1]? = some (c + b + a)) ∧
    t.cache = tribSeq t.cache.length := by
  obtain ⟨_, k, hk3, _, hc⟩ := ht.inv
  rw [hc, tribSeq_length]
  exact ⟨hk3, tribSeq_take_three k hk3, fun i h3 hi => tribSeq_recurrence k i h3 hi, rfl⟩

/-- Witness of C7: the engine `New 10` after `Get 6` and its merge. -/
theorem cache_is_tribonacci_witness :
    Reachable 10 ((New 10).afterGet Background doneFirst 6) ∧
    ((New 10).afterGet Background doneFirst 6).cache = [0, 0, 1, 1, 2, 4] ∧
    ((New 10).afterGet Background doneFirst 6).cache.take 3 = [0, 0, 1] :=
  ⟨Reachable.new.afterGet Background doneFirst 6, by decide,
    (cache_is_tribonacci 10 _ (Reachable.new.afterGet Background doneFirst 6)).2.1⟩

theorem afterGet_extends (t : Tribo) (ctx : Context) (sched : Sched) (n : Int) :
    t.cache <+: (t.afterGet ctx sched n).cache := by
  unfold Tribo.afterGet
  split
  · exact appendToCache_extends t _
  · exact List.prefix_refl _

theorem entry_kept {xs ys : List Int} (h : xs <+: ys) (i : Nat) (v : Int)
    (hv : xs[i]? = some v) : ys[i]? = some v := by
  obtain ⟨r, rfl⟩ := h
  have hi : i < xs.length := by
    by_contra hcon
    rw [List.getElem?_eq_none (by omega)] at hv
    cases hv
  rw [List.getElem?_append_left hi]
  exact hv

/-- C8: the cache is append-only.  For every engine and every candidate slice, the
cache before `appendToCache` is a prefix of the cache after it; for every call of
`Get` (fast or slow path, returning a `Result` or an error) the cache before the call
is a prefix of the cache after the call and its merge.  Hence the length never
decreases and every entry keeps its index and its value. -/
theorem cache_append_only (t : Tribo) :
    (∀ temp : List Int,
      t.cache <+: (t.appendToCache temp).cache ∧
      t.cache.length ≤ (t.appendToCache temp).cache.length ∧
      ∀ (i : Nat) (v : Int), t.cache[i]? = some v → (t.appendToCache temp).cache[i]? = some v) ∧
    (∀ (ctx : Context) (sched : Sched) (n : Int),
      t.cache <+: (t.afterGet ctx sched n).cache ∧
      t.cache.length ≤ (t.afterGet ctx sched n).cache.length ∧
      ∀ (i : Nat) (v : Int), t.cache[i]? = some v →
        (t.afterGet ctx sched n).cache[i]? = some v) :=
  ⟨fun temp => ⟨appendToCache_extends t temp, (appendToCache_extends t temp).length_le,
      fun i v hv => entry_kept (appendToCache_extends t temp) i v hv⟩,
    fun ctx sched n => ⟨afterGet_extends t ctx sched n, (afterGet_extends t ctx sched n).length_le,
      fun i v hv => entry_kept (afterGet_extends t ctx sched n) i v hv⟩⟩

/-- Witness of C8: merging a longer candidate into `New 10` keeps the entry at
index 2. -/
theorem cache_append_only_witness :
    ((New 10).appendToCache [0, 0, 1, 1, 2]).cache = [0, 0, 1, 1, 2] ∧
    ((New 10).appendToCache [0, 0, 1, 1, 2]).cache[2]? = some 1 :=
  ⟨by decide, ((cache_append_only (New 10)).1 [0, 0, 1, 1, 2]).2.2 2 1 (by decide)⟩

/-! ## The constructor and the limit -/

/-- C9: for every integer `cacheSizeLimit`, with no validation, `New cacheSizeLimit`
is an engine whose cache is exactly `[0, 0, 1]`, of length 3, and whose field
`cacheSizeLimit` is the argument. -/
theorem New_seed (cacheSizeLimit : Int) :
    (New cacheSizeLimit).cache = [0, 0, 1] ∧ (New cacheSizeLimit).cache.length = 3 ∧
    (New cacheSizeLimit).getCacheLength = 3 ∧
    (New cacheSizeLimit).cacheSizeLimit = cacheSizeLimit :=
  ⟨rfl, rfl, rfl, rfl⟩

/-- C10: when `cacheSizeLimit <= 3` (zero and negative values included) the cache is
never updated: every engine reachable from `New cacheSizeLimit` has the cache
`[0, 0, 1]`, also after any further call of `Get` and its merge, while `Get n` with
`n >= 1` and a context that never fires still returns the decimal of `T n`.
Conversely, when `cacheSizeLimit > 3`, a call `Get n` with `n > 3` on the fresh engine
grows the cache, to the smaller of `n` and `cacheSizeLimit` entries. -/
theorem cache_updated_iff_limit (cacheSizeLimit : Int) (ctx : Context) (hctx : NeverFires ctx)
    (sched : Sched) (n : Int) :
    (cacheSizeLimit ≤ 3 → ∀ t : Tribo, Reachable cacheSizeLimit t →
      t.cache = [0, 0, 1] ∧
      (∀ (c : Context) (s : Sched) (m : Int), (t.afterGet c s m).cache = [0, 0, 1]) ∧
      (1 ≤ n → (t.Get ctx sched n).ret = .result ⟨toString (T n.toNat)⟩)) ∧
    (3 < cacheSizeLimit → 3 < n →
      (New cacheSizeLimit).cache.length <
        ((New cacheSizeLimit).afterGet ctx sched n).cache.length ∧
      (((New cacheSizeLimit).afterGet ctx sched n).cache.length : Int) = min n cacheSizeLimit ∧
      ((New cacheSizeLimit).afterGet ctx sched n).cache = tribSeq (min n cacheSizeLimit).toNat) := by
  constructor
  · intro hlim
    have hseed : ∀ u : Tribo, Reachable cacheSizeLimit u → u.cache = [0, 0, 1] := by
      intro u hu
      obtain ⟨_, k, hk3, hk, hc⟩ := hu.inv
      have : k = 3 := by omega
      subst this
      rw [hc]; rfl
    intro t ht
    exact ⟨hseed t ht, fun c s m => hseed _ (ht.afterGet c s m),
      fun h1 => Get_neverFires ht ctx hctx sched n h1⟩
  · intro hlim hn
    have hnew : New cacheSizeLimit = { cache := tribSeq 3, cacheSizeLimit := cacheSizeLimit } := rfl
    have hg := Get_miss (New cacheSizeLimit) ctx sched n (by show ((3 : Nat) : Int) < n; omega)
    have hs := slowPath_tribSeq_run cacheSizeLimit ctx sched n 3 (le_refl 3)
      (fun i _ => selectDone_neverFires ctx hctx sched i)
    have hlen : tempLen 3 cacheSizeLimit (3 + (n - (3 : Nat)).toNat) =
        (min n cacheSizeLimit).toNat := by
      unfold tempLen; omega
    rw [hlen] at hs
    have hafter : (New cacheSizeLimit).afterGet ctx sched n =
        { cache := tribSeq (min n cacheSizeLimit).toNat, cacheSizeLimit := cacheSizeLimit } := by
      unfold Tribo.afterGet
      rw [hg]
      rw [hnew]
      simp only [Tribo.cacheCopy, hs, appendToCache_tribSeq]
      congr 2
      omega
    rw [hafter]
    simp only [tribSeq_length]
    refine ⟨?_, by omega, trivial⟩
    show 3 < (min n cacheSizeLimit).toNat
    omega

/-- Witness of C10: with the limit 0 the cache stays `[0, 0, 1]` after `Get 7`, which
returns "7"; with the limit 10 the call `Get 7` grows the cache to seven entries. -/
theorem cache_updated_iff_limit_witness :
    NeverFires Background ∧ (0 : Int) ≤ 3 ∧ Reachable 0 (New 0) ∧
    ((New 0).afterGet Background doneFirst 7).cache = [0, 0, 1] ∧
    ((New 0).Get Background doneFirst 7).ret = .result ⟨toString (T (7 : Int).toNat)⟩ ∧
    (3 : Int) < 10 ∧ (3 : Int) < 7 ∧
    (((New 10).afterGet Background doneFirst 7).cache.length : Int) = min 7 10 :=
  ⟨neverFires_Background, by decide, Reachable.new,
    ((cache_updated_iff_limit 0 Background neverFires_Background doneFirst 7).1 (by decide)
      (New 0) Reachable.new).2.1 Background doneFirst 7,
    ((cache_updated_iff_limit 0 Background neverFires_Background doneFirst 7).1 (by decide)
      (New 0) Reachable.new).2.2 (by decide),
    by decide, by decide,
    ((cache_updated_iff_limit 10 Background neverFires_Background doneFirst 7).2 (by decide)
      (by decide)).2.1⟩

/-! ## Racing merges -/

/-- C11: racing merges never corrupt the sequence.  For a cache `T 1, ..., T k` (any
`k`, so also every `k >= 3`) and two candidates `T 1, ..., T p` and `T 1, ..., T q`, merging them in
either order gives the same cache, the list `T 1, ..., T (max k p q)`; after the
first merge the cache is again a list of first terms; so every entry sits at its own
index, right after its three predecessors, and none is appended twice. -/
theorem racing_merges_commute (k p q : Nat) (limit : Int) :
    (({ cache := tribSeq k, cacheSizeLimit := limit } : Tribo).appendToCache
        (tribSeq p)).appendToCache (tribSeq q) =
      (({ cache := tribSeq k, cacheSizeLimit := limit } : Tribo).appendToCache
        (tribSeq q)).appendToCache (tribSeq p) ∧
    (({ cache := tribSeq k, cacheSizeLimit := limit } : Tribo).appendToCache
        (tribSeq p)).appendToCache (tribSeq q) =
      { cache := tribSeq (max k (max p q)), cacheSizeLimit := limit } ∧
    (({ cache := tribSeq k, cacheSizeLimit := limit } : Tribo).appendToCache (tribSeq p)).cache =
      tribSeq (max k p) ∧
    ((({ cache := tribSeq k, cacheSizeLimit := limit } : Tribo).appendToCache
        (tribSeq p)).appendToCache (tribSeq q)).cache.length = max k (max p q) ∧
    (∀ i : Nat, i < max k (max p q) →
      ((({ cache := tribSeq k, cacheSizeLimit := limit } : Tribo).appendToCache
        (tribSeq p)).appendToCache (tribSeq q)).cache[i]? = some (T (i + 1))) ∧
    (∀ i : Nat, 3 < i → i ≤ max k (max p q) → ∃ x y z : Int,
      (tribSeq (max k (max p q)))[i - 4]? = some x ∧
      (tribSeq (max k (max p q)))[i - 3]? = some y ∧
      (tribSeq (max k (max p q)))[i - 2]? = some z ∧
      ((({ cache := tribSeq k, cacheSizeLimit := limit } : Tribo).appendToCache
        (tribSeq p)).appendToCache (tribSeq q)).cache[i - 1]? = some (z + y + x)) := by
  have e1 : max (max k p) q = max k (max p q) := by omega
  have e2 : max (max k q) p = max k (max p q) := by omega
  have h1 : (({ cache := tribSeq k, cacheSizeLimit := limit } : Tribo).appendToCache
        (tribSeq p)).appendToCache (tribSeq q) =
      { cache := tribSeq (max k (max p q)), cacheSizeLimit := limit } := by
    rw [appendToCache_tribSeq, appendToCache_tribSeq, e1]
  have h2 : (({ cache := tribSeq k, cacheSizeLimit := limit } : Tribo).appendToCache
        (tribSeq q)).appendToCache (tribSeq p) =
      { cache := tribSeq (max k (max p q)), cacheSizeLimit := limit } := by
    rw [appendToCache_tribSeq, appendToCache_tribSeq, e2]
  refine ⟨by rw [h1, h2], h1, by rw [appendToCache_tribSeq], by rw [h1]; exact tribSeq_length _,
    fun i hi => by rw [h1]; exact tribSeq_getElem? _ i hi, fun i h3 hi => ?_⟩
  rw [h1]
  exact tribSeq_recurrence _ i h3 hi

/-- Witness of C11: on the seed cache, the candidates of length 5 and 4 merged in
either order give the first five terms. -/
theorem racing_merges_commute_witness :
    (New 10).cache = tribSeq 3 ∧
    ((New 10).appendToCache [0, 0, 1, 1, 2]).appendToCache [0, 0, 1, 1] =
      ((New 10).appendToCache [0, 0, 1, 1]).appendToCache [0, 0, 1, 1, 2] ∧
    (((New 10).appendToCache [0, 0, 1, 1, 2]).appendToCache [0, 0, 1, 1]).cache =
      [0, 0, 1, 1, 2] :=
  ⟨rfl, (racing_merges_commute 3 5 4 10).1, by decide⟩

theorem appendToCache_longer (t : Tribo) (temp : List Int) (h : t.cache.length < temp.length) :
    (t.appendToCache temp).cache = t.cache ++ temp.drop t.cache.length ∧
    (t.appendToCache temp).cache.length = temp.length := by
  have hc : (t.appendToCache temp).cache = t.cache ++ temp.drop t.cache.length := by
    simp only [Tribo.appendToCache, gt_iff_lt, h, if_true]
  refine ⟨hc, ?_⟩
  rw [hc, List.length_append, List.length_drop]
  omega

theorem appendToCache_not_longer (t : Tribo) (temp : List Int)
    (h : temp.length ≤ t.cache.length) : t.appendToCache temp = t := by
  have : ¬ temp.length > t.cache.length := by omega
  simp only [Tribo.appendToCache, this, if_false]

/-- Counterexample to C12 as stated: there are no cache and candidates `s` shorter,
`g` longer, both longer than the cache, such that after `appendToCache s` followed
by `appendToCache g` the cache length stays the length of `s`. -/
theorem longer_extension_never_discarded :
    ¬ ∃ (t : Tribo) (s g : List Int), t.cache.length < s.length ∧ s.length < g.length ∧
      ((t.appendToCache s).appendToCache g).cache.length = s.length := by
  rintro ⟨t, s, g, h1, h2, h3⟩
  have hs := (appendToCache_longer t s h1).2
  have hg := (appendToCache_longer (t.appendToCache s) g (by rw [hs]; exact h2)).2
  omega

/-- C12 (amended): when two merges race, it is the shorter extension whose work is
lost, whatever the order.  For every cache and candidates `s` shorter and `g`
longer, both longer than the cache: after `appendToCache s` followed by
`appendToCache g` the cache has the length of `g` and ends with the terms of `g`
beyond the length of `s`; after `appendToCache g` followed by `appendToCache s` the
second merge appends nothing. -/
theorem shorter_extension_discarded (t : Tribo) (s g : List Int)
    (h1 : t.cache.length < s.length) (h2 : s.length < g.length) :
    ((t.appendToCache s).appendToCache g).cache.length = g.length ∧
    ((t.appendToCache s).appendToCache g).cache =
      t.cache ++ s.drop t.cache.length ++ g.drop s.length ∧
    (t.appendToCache g).appendToCache s = t.appendToCache g ∧
    ((t.appendToCache g).appendToCache s).cache = t.cache ++ g.drop t.cache.length := by
  have hs := appendToCache_longer t s h1
  have hg := appendToCache_longer (t.appendToCache s) g (by rw [hs.2]; exact h2)
  have hg2 := appendToCache_longer t g (by omega)
  have hback : (t.appendToCache g).appendToCache s = t.appendToCache g :=
    appendToCache_not_longer _ s (by rw [hg2.2]; omega)
  refine ⟨hg.2, ?_, hback, by rw [hback]; exact hg2.1⟩
  rw [hg.1, hs.2, hs.1]

/-- Witness of C12 (amended): on the seed cache, the candidate of length 4 and then
the candidate of length 6. -/
theorem shorter_extension_discarded_witness :
    (New 10).cache.length < [0, 0, 1, 1].length ∧
    [0, 0, 1, 1].length < [0, 0, 1, 1, 2, 4].length ∧
    (((New 10).appendToCache [0, 0, 1, 1]).appendToCache [0, 0, 1, 1, 2, 4]).cache.length = 6 ∧
    (((New 10).appendToCache [0, 0, 1, 1]).appendToCache [0, 0, 1, 1, 2, 4]).cache =
      [0, 0, 1, 1, 2, 4] :=
  ⟨by decide, by decide,
    (shorter_extension_discarded (New 10) [0, 0, 1, 1] [0, 0, 1, 1, 2, 4] (by decide)
      (by decide)).1,
    by decide⟩

/-! ## The tail of a slice -/

theorem index_ok (s : List Int) (i : Nat) (h : i < s.length) :
    ∃ v, s[i]? = some v ∧ index s (i : Int) = .ok v := by
  refine ⟨s[i], List.getElem?_eq_getElem h, ?_⟩
  simp [index, List.getElem?_eq_getElem h]

/-- C13: `lastThree s` panics exactly when `len(s) < 3` (so on the nil or empty
slice), with the message "Tribo struct was not properly initialized"; for every
slice of length at least 3 it returns the values of `s[len-3]`, `s[len-2]` and
`s[len-1]`, in that order.  The function yields nothing but that triple, so the
slice itself is as before. -/
theorem lastThree_spec (s : List Int) :
    ((∃ msg, lastThree s = .error msg) ↔ s.length < 3) ∧
    (s.length < 3 → lastThree s = .error "Tribo struct was not properly initialized") ∧
    (3 ≤ s.length → ∃ x y z : Int, lastThree s = .ok (x, y, z) ∧
      s[s.length - 3]? = some x ∧ s[s.length - 2]? = some y ∧ s[s.length - 1]? = some z) := by
  have hsmall : s.length < 3 →
      lastThree s = .error "Tribo struct was not properly initialized" := by
    intro h
    have hl : ((s.length : Nat) : Int) < 3 := by omega
    simp only [lastThree, hl, if_true]
  have hbig : 3 ≤ s.length → ∃ x y z : Int, lastThree s = .ok (x, y, z) ∧
      s[s.length - 3]? = some x ∧ s[s.length - 2]? = some y ∧ s[s.length - 1]? = some z := by
    intro h
    obtain ⟨x, hx, hix⟩ := index_ok s (s.length - 3) (by omega)
    obtain ⟨y, hy, hiy⟩ := index_ok s (s.length - 2) (by omega)
    obtain ⟨z, hz, hiz⟩ := index_ok s (s.length - 1) (by omega)
    have e1 : ((s.length : Nat) : Int) - 3 = ((s.length - 3 : Nat) : Int) := by omega
    have e2 : ((s.length : Nat) : Int) - 2 = ((s.length - 2 : Nat) : Int) := by omega
    have e3 : ((s.length : Nat) : Int) - 1 = ((s.length - 1 : Nat) : Int) := by omega
    have hl : ¬ ((s.length : Nat) : Int) < 3 := by omega
    refine ⟨x, y, z, ?_, hx, hy, hz⟩
    simp only [lastThree, hl, if_false, e1, e2, e3, hix, hiy, hiz]
    rfl
  refine ⟨⟨?_, fun h => ⟨_, hsmall h⟩⟩, hsmall, hbig⟩
  rintro ⟨msg, hmsg⟩
  by_contra hcon
  obtain ⟨x, y, z, hok, _⟩ := hbig (by omega)
  rw [hok] at hmsg
  cases hmsg

/-- Witness of C13: the nil slice panics, and the slice of the test gives its last
three entries. -/
theorem lastThree_spec_witness :
    ([] : List Int).length < 3 ∧
    lastThree [] = .error "Tribo struct was not properly initialized" ∧
    lastThree [1, 2, 3, 3, 2, 1] = .ok (3, 2, 1) :=
  ⟨by decide, (lastThree_spec []).2.1 (by decide), rfl⟩

/-! ## The private list of the slow path -/

theorem aligned_init (limit : Int) (temp : List Int) (x y z : Int) :
    Aligned limit (LoopState.mk (temp.length : Int) x y z temp) :=
  ⟨fun _ => rfl, fun h => h⟩

theorem aligned_test {limit : Int} {s : LoopState} (h : Aligned limit s) :
    (s.l < limit ↔ (s.tempCache.length : Int) < limit) := by
  obtain ⟨h1, h2⟩ := h
  constructor
  · intro hl; rw [h1 hl]; exact hl
  · intro hlen
    by_contra hcon
    have := h2 (by omega)
    omega

theorem loopBody_eq_spec {limit : Int} {s : LoopState} (h : Aligned limit s) :
    loopBody limit s = loopBodySpec limit s := by
  by_cases hl : s.l < limit
  · have hlen : (s.tempCache.length : Int) < limit := (aligned_test h).1 hl
    simp only [loopBody, loopBodySpec, hl, hlen, if_true]
  · have hlen : ¬ (s.tempCache.length : Int) < limit := fun hc => hl ((aligned_test h).2 hc)
    simp only [loopBody, loopBodySpec, hl, hlen, if_false]

theorem loopBody_aligned {limit : Int} {s : LoopState} (h : Aligned limit s) :
    Aligned limit (loopBody limit s) := by
  obtain ⟨h1, h2⟩ := h
  by_cases hl : s.l < limit
  · have hlen := h1 hl
    simp only [Aligned, loopBody, hl, if_true, List.length_append, List.length_singleton]
    constructor
    · intro _; push_cast; omega
    · intro _; push_cast; omega
  · have hlen := h2 (by omega)
    simp only [Aligned, loopBody, hl, if_false]
    constructor
    · intro hc; omega
    · intro _; exact hlen

theorem loop_eq_spec (limit : Int) (ctx : Context) (sched : Sched) (n : Int) :
    ∀ (iters k : Nat) (s : LoopState), Aligned limit s →
      loop limit ctx sched n iters k s = loopSpec limit ctx sched n iters k s := by
  intro iters
  induction iters with
  | zero => intro k s _; rfl
  | succ iters ih =>
    intro k s hs
    simp only [loop, loopSpec]
    split
    · split
      · rfl
      · rw [← loopBody_eq_spec hs]
        exact ih (k + 1) _ (loopBody_aligned hs)
    · rfl

theorem slowPath_eq_spec (limit : Int) (ctx : Context) (sched : Sched) (n : Int)
    (temp : List Int) : slowPath limit ctx sched n temp = slowPathSpec limit ctx sched n temp := by
  unfold slowPath slowPathSpec
  cases lastThree temp with
  | error msg => rfl
  | ok v =>
    obtain ⟨x, y, z⟩ := v
    dsimp only
    rw [loop_eq_spec limit ctx sched n _ 0 _ (aligned_init limit temp x y z)]

/-- C14: in the slow path a newly computed term is appended to the private list
exactly when the length of the private list before the append is below
`cacheSizeLimit`.  The source tests the loop counter `l`; from the start
`l = len(tempCache)` on, the counter and the list stay aligned, the two tests agree,
and `l` is the length of the list whenever an append is decided, so the slow path of
the source is the slow path with the step of the spec.  Consequently, for a snapshot
`T 1, ..., T L0` with `L0 < n`, the private list submitted for merge has length
`max L0 (min n cacheSizeLimit)` and its entry at each 1-based index `i` is `T i`. -/
theorem private_list_spec (cacheSizeLimit : Int) (ctx : Context) (sched : Sched) (n : Int) :
    (∀ temp : List Int,
      slowPath cacheSizeLimit ctx sched n temp = slowPathSpec cacheSizeLimit ctx sched n temp) ∧
    (∀ (temp : List Int) (x y z : Int),
      Aligned cacheSizeLimit (LoopState.mk (temp.length : Int) x y z temp)) ∧
    (∀ s : LoopState, Aligned cacheSizeLimit s →
      Aligned cacheSizeLimit (loopBody cacheSizeLimit s) ∧
      (s.l < cacheSizeLimit ↔ (s.tempCache.length : Int) < cacheSizeLimit) ∧
      (s.l < cacheSizeLimit → s.l = (s.tempCache.length : Int)) ∧
      (loopBody cacheSizeLimit s).tempCache =
        if (s.tempCache.length : Int) < cacheSizeLimit then
          s.tempCache ++ [s.n1 + s.n2 + s.n3]
        else s.tempCache) ∧
    (∀ (L0 : Nat) (m : List Int), 3 ≤ L0 → (L0 : Int) < n →
      (slowPath cacheSizeLimit ctx sched n (tribSeq L0)).merge = some m →
      (m.length : Int) = max (L0 : Int) (min n cacheSizeLimit) ∧
      ∀ i : Nat, 1 ≤ i → i ≤ m.length → m[i - 1]? = some (T i)) := by
  refine ⟨slowPath_eq_spec cacheSizeLimit ctx sched n, aligned_init cacheSizeLimit, ?_, ?_⟩
  · intro s hs
    refine ⟨loopBody_aligned hs, aligned_test hs, fun hl => (hs.1 hl).symm, ?_⟩
    rw [loopBody_eq_spec hs]
    rfl
  · intro L0 m hL hn hm
    rcases slowPath_tribSeq cacheSizeLimit ctx sched n L0 hL with ⟨e, he⟩ | hr
    · rw [he] at hm; cases hm
    · rw [hr] at hm
      simp only [Option.some.injEq] at hm
      subst hm
      rw [tribSeq_length]
      constructor
      · unfold tempLen; omega
      · intro i h1 hi
        have := tribSeq_getElem? (tempLen L0 cacheSizeLimit (L0 + (n - L0).toNat)) (i - 1)
          (by omega)
        rwa [show i - 1 + 1 = i by omega] at this

/-- Witness of C14: `Get 30` on the seed snapshot with the limit 20 submits the first
20 terms. -/
theorem private_list_spec_witness :
    (3 : Nat) ≤ 3 ∧ ((3 : Nat) : Int) < 30 ∧
    (slowPath 20 Background doneFirst 30 (tribSeq 3)).merge = some (tribSeq 20) ∧
    ((tribSeq 20).length : Int) = max ((3 : Nat) : Int) (min 30 20) :=
  ⟨le_refl 3, by decide, by decide,
    ((private_list_spec 20 Background doneFirst 30).2.2.2 3 (tribSeq 20) (le_refl 3)
      (by decide) (by decide)).1⟩

/-! ## The fast path and the lookup -/

theorem cacheValue_within (t : Tribo) (n : Int) (h1 : 1 ≤ n) (h2 : n ≤ t.cache.length) :
    ∃ v, t.cache[(n - 1).toNat]? = some v ∧ t.cacheValue n = .ok (some ⟨bigString v⟩) := by
  obtain ⟨v, hv, hi⟩ := index_ok t.cache (n - 1).toNat (by omega)
  have e : (((n - 1).toNat : Nat) : Int) = n - 1 := by omega
  rw [e] at hi
  refine ⟨v, hv, ?_⟩
  simp only [Tribo.cacheValue, h2, if_true, hi]
  rfl

theorem cacheValue_nonpos (t : Tribo) (n : Int) (h : n ≤ 0) :
    t.cacheValue n = .error "index out of range" := by
  have h1 : n ≤ (t.cache.length : Int) := by omega
  have h2 : ¬ (0 ≤ n - 1) := by omega
  simp only [Tribo.cacheValue, h1, if_true, index, h2, if_false]
  rfl

/-- C15: the fast path.  For every engine (so for every reachable one) and every `n`
with `1 <= n <= len(cache)`, `Get n` returns the decimal string of the cache entry
at 1-based index `n`, with no error, whatever the context and the scheduler, also
with an already expired context; it schedules no merge and leaves the engine
unchanged.  The outcome does not depend on any `select`: no extension step runs. -/
theorem Get_fast_path (t : Tribo) (n : Int) (h1 : 1 ≤ n) (h2 : n ≤ t.cache.length) :
    ∃ v : Int, t.cache[(n - 1).toNat]? = some v ∧
      ∀ (ctx : Context) (sched : Sched),
        t.Get ctx sched n = { ret := .result ⟨bigString v⟩, merge := none } ∧
        t.afterGet ctx sched n = t := by
  obtain ⟨v, hv, hc⟩ := cacheValue_within t n h1 h2
  refine ⟨v, hv, fun ctx sched => ?_⟩
  have h0 : ¬ n ≤ 0 := by omega
  have hg : t.Get ctx sched n = { ret := .result ⟨bigString v⟩, merge := none } := by
    simp only [Tribo.Get, h0, if_false, hc]
  exact ⟨hg, afterGet_of_merge_none t ctx sched n (by rw [hg])⟩

/-- Witness of C15: `Get 3` on `New 20` with an expired context returns "1". -/
theorem Get_fast_path_witness :
    (1 : Int) ≤ 3 ∧ (3 : Int) ≤ (New 20).cache.length ∧
    (New 20).Get Expired doneFirst 3 = { ret := .result ⟨"1"⟩, merge := none } ∧
    ∃ v : Int, (New 20).cache[((3 : Int) - 1).toNat]? = some v :=
  ⟨by decide, by decide, by decide,
    (Get_fast_path (New 20) 3 (by decide) (by decide)).imp fun _ h => h.1⟩

/-- Counterexample to C16 as stated: for `n = 0` and for `n = -5` the lookup
`cacheValue` does not indicate absence, it panics on the index `cache[n-1]`. -/
theorem cacheValue_nonpos_panics :
    (New 10).cacheValue 0 = .error "index out of range" ∧
    (New 10).cacheValue (-5) = .error "index out of range" ∧
    (New 10).cacheValue 0 ≠ .ok none ∧ (New 10).cacheValue (-5) ≠ .ok none :=
  ⟨rfl, rfl, (fun h => by cases h), (fun h => by cases h)⟩

/-- C16 (amended): for every cache and every `n` with `1 <= n <= len(cache)`,
`cacheValue n` returns the decimal string of `cache[n-1]` with `ok = true`; for
every `n > len(cache)` it indicates absence `(nil, false)`; in both cases it yields
nothing but that pair, so the cache is as before.  For `n <= 0` it panics on the
index `cache[n-1]`; `Get` tests `n <= 0` before it calls `cacheValue`, so the
lookup is only ever called with `n >= 1`. -/
theorem cacheValue_spec (t : Tribo) (n : Int) :
    (1 ≤ n → n ≤ t.cache.length →
      ∃ v : Int, t.cache[(n - 1).toNat]? = some v ∧
        t.cacheValue n = .ok (some ⟨bigString v⟩)) ∧
    ((t.cache.length : Int) < n → 1 ≤ n ∧ t.cacheValue n = .ok none) ∧
    (n ≤ 0 → t.cacheValue n = .error "index out of range" ∧
      ∀ (ctx : Context) (sched : Sched),
        t.Get ctx sched n =
          { ret := .err (Error.New "N should be a positive integer"), merge := none }) :=
  ⟨fun h1 h2 => cacheValue_within t n h1 h2,
    fun h => ⟨by omega, cacheValue_miss t n h⟩,
    fun h => ⟨cacheValue_nonpos t n h, fun ctx sched => Get_nonpos t ctx sched n h⟩⟩

/-- Witness of C16 (amended): on `New 10`, index 3 hits with "1" and index 4 is
absent. -/
theorem cacheValue_spec_witness :
    (1 : Int) ≤ 3 ∧ (3 : Int) ≤ (New 10).cache.length ∧
    (∃ v : Int, (New 10).cache[((3 : Int) - 1).toNat]? = some v ∧
      (New 10).cacheValue 3 = .ok (some ⟨bigString v⟩)) ∧
    ((New 10).cache.length : Int) < 4 ∧ (New 10).cacheValue 4 = .ok none :=
  ⟨by decide, by decide, (cacheValue_spec (New 10) 3).1 (by decide) (by decide),
    by decide, ((cacheValue_spec (New 10) 4).2.1 (by decide)).2⟩

/-! ## No abrupt failure -/

theorem appendToCacheChecked_ok (t : Tribo) (temp : List Int) :
    t.appendToCacheChecked temp = .ok (t.appendToCache temp) := by
  by_cases h : temp.length > t.cache.length
  · have hb : (0 : Int) ≤ (t.cache.length : Int) ∧ (t.cache.length : Int) ≤ (temp.length : Int) := by
      constructor <;> omega
    simp only [Tribo.appendToCacheChecked, Tribo.appendToCache, h, if_true, sliceFrom, hb,
      and_self, Int.toNat_ofNat]
  · simp only [Tribo.appendToCacheChecked, Tribo.appendToCache, h, if_false]

theorem slowPath_tribSeq_returns (limit : Int) (ctx : Context) (sched : Sched) (n : Int)
    (L : Nat) (hL : 3 ≤ L) :
    (∃ r, (slowPath limit ctx sched n (tribSeq L)).ret = .result r) ∨
    (∃ e, (slowPath limit ctx sched n (tribSeq L)).ret = .err e) := by
  rcases slowPath_tribSeq limit ctx sched n L hL with ⟨e, he⟩ | hr
  · right; exact ⟨e, by rw [he]⟩
  · left; exact ⟨_, by rw [hr]⟩

theorem GetRaced_returns (k L : Nat) (hL : 3 ≤ L) (limit : Int) (ctx : Context)
    (sched : Sched) (n : Int) :
    (∃ r, (Tribo.GetRaced { cache := tribSeq k, cacheSizeLimit := limit }
        { cache := tribSeq L, cacheSizeLimit := limit } ctx sched n).ret = .result r) ∨
    (∃ e, (Tribo.GetRaced { cache := tribSeq k, cacheSizeLimit := limit }
        { cache := tribSeq L, cacheSizeLimit := limit } ctx sched n).ret = .err e) := by
  by_cases h0 : n ≤ 0
  · right
    exact ⟨Error.New "N should be a positive integer", by
      simp only [Tribo.GetRaced, h0, if_true]⟩
  · by_cases h2 : n ≤ k
    · left
      exact ⟨⟨bigString (T n.toNat)⟩, by
        simp only [Tribo.GetRaced, h0, if_false, cacheValue_hit k limit n (by omega) h2]⟩
    · have hm := cacheValue_miss { cache := tribSeq k, cacheSizeLimit := limit } n
        (by rw [tribSeq_length]; omega)
      simp only [Tribo.GetRaced, h0, if_false, hm, Tribo.cacheCopy]
      exact slowPath_tribSeq_returns limit ctx sched n L hL

theorem Get_eq_GetRaced (t : Tribo) (ctx : Context) (sched : Sched) (n : Int) :
    t.Get ctx sched n = t.GetRaced t ctx sched n := rfl

/-- C17: `Get` never fails abruptly.  On every engine reachable from `New limit`, for
any integer `limit`, every integer `n`, every context and every scheduler, `Get n`
returns a `Result` or an error and never panics, also when the cache was extended to
another reachable engine between its two reads.  The three panic sites are not
reached: for `n >= 1` the index `cache[n-1]` of `cacheValue` is in range, `lastThree`
of the snapshot does not take its panic branch, and the slice expression
`temp[len(t.cache):]` of `appendToCache` is within bounds for every engine and every
candidate slice. -/
theorem Get_never_panics (limit : Int) (t : Tribo) (ht : Reachable limit t) (ctx : Context)
    (sched : Sched) (n : Int) :
    ((∃ r, (t.Get ctx sched n).ret = .result r) ∨ (∃ e, (t.Get ctx sched n).ret = .err e)) ∧
    (∀ msg, (t.Get ctx sched n).ret ≠ .panic msg) ∧
    (∀ later : Tribo, Reachable limit later → ∀ msg,
      (t.GetRaced later ctx sched n).ret ≠ .panic msg) ∧
    (1 ≤ n → ∃ v, t.cacheValue n = .ok v) ∧
    (∃ x y z : Int, lastThree t.cacheCopy = .ok (x, y, z)) ∧
    (∀ (u : Tribo) (temp : List Int), u.appendToCacheChecked temp = .ok (u.appendToCache temp)) ∧
    Reachable limit (t.afterGet ctx sched n) := by
  obtain ⟨k, hk3, _, rfl⟩ := Inv_eq ht.inv
  have hret := GetRaced_returns k k hk3 limit ctx sched n
  rw [← Get_eq_GetRaced] at hret
  refine ⟨hret, ?_, ?_, ?_, ?_, appendToCacheChecked_ok, ht.afterGet ctx sched n⟩
  · intro msg hmsg
    rcases hret with ⟨r, hr⟩ | ⟨e, he⟩
    · rw [hr] at hmsg; cases hmsg
    · rw [he] at hmsg; cases hmsg
  · intro later hlater msg hmsg
    obtain ⟨L, hL3, _, rfl⟩ := Inv_eq hlater.inv
    rcases GetRaced_returns k L hL3 limit ctx sched n with ⟨r, hr⟩ | ⟨e, he⟩
    · rw [hr] at hmsg; cases hmsg
    · rw [he] at hmsg; cases hmsg
  · intro h1
    by_cases h2 : n ≤ k
    · exact ⟨_, cacheValue_hit k limit n h1 h2⟩
    · exact ⟨_, cacheValue_miss _ n (by rw [tribSeq_length]; omega)⟩
  · exact ⟨_, _, _, lastThree_tribSeq k hk3⟩

/-- Witness of C17: `Get 0`, `Get (-5)` and `Get 30` on `New (-1)`. -/
theorem Get_never_panics_witness :
    Reachable (-1) (New (-1)) ∧
    ((New (-1)).Get Background doneFirst 30).ret = .result ⟨"8646064"⟩ ∧
    (∀ msg, ((New (-1)).Get Expired doneFirst 0).ret ≠ .panic msg) ∧
    (∀ msg, ((New (-1)).Get Expired computeFirst (-5)).ret ≠ .panic msg) :=
  ⟨Reachable.new, by decide,
    (Get_never_panics (-1) (New (-1)) Reachable.new Expired doneFirst 0).2.1,
    (Get_never_panics (-1) (New (-1)) Reachable.new Expired computeFirst (-5)).2.1⟩

end tribo
